import Mathlib

set_option maxHeartbeats 1000000
set_option linter.unnecessarySeqFocus false

/-!
Verification of the qutilities QFT arithmetic components.

This file gives a shallow embedding of `qutilities/arithmetic/adders/qft_adder.py`
(class `QFTAdder`) and `qutilities/arithmetic/multipliers/qft_multiplier.py`
(class `QFTMultiplier`), and proves or refutes the specification claims about them.

Conventions of the embedding:
- A qiskit `QuantumRegister` is a `QReg` (size and name); qiskit registers compare
  structurally by size and name, which is what Python's `in`, `==` and circuit
  bookkeeping use.
- A `QuantumCircuit` is a `Circuit`: a declared register list plus an ordered list
  of appended operations.  `QuantumCircuit(*regs)` rejects a duplicated register
  name with a `CircuitError`; `newCircuit` mirrors that check.
- Controlled-phase angles are kept exactly, as rational multiples of pi
  (`Op.cp theta _ _` stands for the gate `cp(theta * pi, control, target)`).
  All angles produced by the code are dyadic multiples of pi, so this is exact.
- Python exceptions are the `PyError` kind that the raising site produces
  (`ValueError`, `TypeError`, qiskit's `CircuitError`).
-/

/-- A quantum register: fixed size and name, mirroring `qiskit.QuantumRegister`
as used by the repository (constructed as `QuantumRegister(size, name)`).
Registers compare structurally, as qiskit registers do. -/
structure QReg where
  size : ℕ
  name : String
deriving DecidableEq

/-- The kinds of Python exception the embedded code can raise. -/
inductive PyError where
  | valueError
  | typeError
  | circuitError
deriving DecidableEq

/-- An opaque reusable gate obtained from a built circuit (`to_gate` / `control`).
`cAdder` stands for the single-control controlled adder gate the multiplier
intends to create from `QFTAdder(...).build().to_gate().control()`. -/
inductive Gate where
  | cAdder (ysize msize : ℕ) (inverse : Bool)
deriving DecidableEq

/-- One appended circuit operation.  `cp theta ctrl tgt` is the controlled-phase
gate with angle `theta * pi` radians (theta kept exactly as a rational), control
qubit `ctrl` and target qubit `tgt`, where a qubit is a register paired with an
index.  `qftGate n` / `iqftGate n` are the opaque QFT / inverse-QFT gates that
`QFTGate(num_qubits=n).build()` returns, appended across one register.
`cgateApp g qs` is a controlled composite gate appended on the qubit list `qs`
(control qubit first).  `barrier` is the cosmetic barrier. -/
inductive Op where
  | qftGate (n : ℕ)
  | iqftGate (n : ℕ)
  | cp (angle : ℚ) (ctrl : QReg × ℕ) (tgt : QReg × ℕ)
  | cgateApp (g : Gate) (qubits : List (QReg × ℕ))
  | barrier
deriving DecidableEq

/-- A quantum circuit: declared registers, name, and the ordered operation list. -/
structure Circuit where
  regs : List QReg
  name : String
  ops : List Op
deriving DecidableEq

/-- Embedding of `QuantumCircuit(*registers, name=...)`: declaring the registers on a
fresh circuit.  qiskit's `add_register` raises `CircuitError` when a register with an
already-declared name is added again (which in particular happens when the same
register object is passed twice). -/
def newCircuit (regs : List QReg) (nm : String) : Except PyError Circuit :=
  if (regs.map QReg.name).Nodup then .ok ⟨regs, nm, []⟩ else .error .circuitError

/-- True exactly on a successful (non-raising) result. -/
def exceptOk {ε α : Type} : Except ε α → Bool
  | .ok _ => true
  | .error _ => false

/- ===================== QFTAdder ===================== -/

/-- The configuration state a successfully constructed `QFTAdder` instance holds
(the attributes set by `QFTAdder.__init__`). -/
structure AdderCfg where
  A_reg : QReg
  B_reg : QReg
  num_qubits : ℕ
  owns_registers : Bool
  subtract : Bool
  skip_qft : Bool
  label : String
  debug : Bool
  insert_barrier : Bool
deriving DecidableEq

/-- Embedding of `QFTAdder.__init__` (qft_adder.py lines 66-92).
With both external registers, it requires `A.size == B.size + 1` and otherwise
raises `ValueError`; with exactly one external register it raises `ValueError`;
with none it allocates `A` of size `num_qubits + 1` and `B` of size `num_qubits`
(no validation of `num_qubits` itself; register sizes are natural numbers, per
the external register interface `new_register(size, name), size >= 0`). -/
def adderInit (num_qubits : ℕ) (subtract skip_qft : Bool)
    (A B : Option QReg) (label : Option String)
    (debug insert_barrier : Bool) : Except PyError AdderCfg :=
  let lbl := label.getD (if subtract then "|A-B⟩" else "|A+B⟩")
  match A, B with
  | some a, some b =>
      if a.size ≠ b.size + 1 then .error .valueError
      else .ok ⟨a, b, b.size, false, subtract, skip_qft, lbl, debug, insert_barrier⟩
  | some _, none => .error .valueError
  | none, some _ => .error .valueError
  | none, none =>
      .ok ⟨⟨num_qubits + 1, "A"⟩, ⟨num_qubits, "B"⟩, num_qubits, true,
           subtract, skip_qft, lbl, debug, insert_barrier⟩

/-- Embedding of the register-deduplication loop in `QFTAdder._create_circuit`:
`registers = []; for r in [A, B]: if r not in registers: registers.append(r)`. -/
def dedupRegs (l : List QReg) : List QReg :=
  l.foldl (fun acc r => if r ∈ acc then acc else acc ++ [r]) []

/-- The register list `QFTAdder._create_circuit` declares on the circuit:
`[A, B]` directly in internal mode, the deduplicated `[A, B]` in external mode. -/
def adderCircuitRegs (cfg : AdderCfg) : List QReg :=
  if cfg.owns_registers then [cfg.A_reg, cfg.B_reg]
  else dedupRegs [cfg.A_reg, cfg.B_reg]

/-- Embedding of `QFTAdder._encode_angle` (qft_adder.py lines 163-179):
`angle = pi / (2 ** distance); return -angle if self.subtract else angle`. -/
noncomputable def encode_angle (subtract : Bool) (distance : ℕ) : ℝ :=
  let angle := Real.pi / 2 ^ distance
  if subtract then -angle else angle

/-- The same angle expressed exactly, as a rational multiple of pi:
`encodeAngleQ s d * pi = encode_angle s d`. -/
def encodeAngleQ (subtract : Bool) (distance : ℕ) : ℚ :=
  let angle : ℚ := 1 / 2 ^ distance
  if subtract then -angle else angle

/-- Embedding of `QFTAdder._apply_phase_kick`: the single gate
`cp(self._encode_angle(target_idx - control_idx), B[control_idx], A[target_idx])`. -/
def applyPhaseKick (cfg : AdderCfg) (control_idx target_idx : ℕ) : Op :=
  Op.cp (encodeAngleQ cfg.subtract (target_idx - control_idx))
    (cfg.B_reg, control_idx) (cfg.A_reg, target_idx)

/-- Embedding of `QFTAdder._apply_qft`: the operations it appends
(the QFT gate on `A`, then a barrier when enabled; nothing when `skip_qft`). -/
def applyQFTOps (cfg : AdderCfg) : List Op :=
  if cfg.skip_qft then []
  else [Op.qftGate cfg.A_reg.size] ++ (if cfg.insert_barrier then [Op.barrier] else [])

/-- Embedding of `QFTAdder._apply_phase_kickbacks` (qft_adder.py lines 196-205):
`for c in range(B.size): for t in range(c, A.size): _apply_phase_kick(c, t)`,
with a barrier after each inner loop when enabled.
Python's `range(c, p)` is `List.range' c (p - c)`. -/
def kickbackOps (cfg : AdderCfg) : List Op :=
  (List.range cfg.B_reg.size).flatMap fun c =>
    ((List.range' c (cfg.A_reg.size - c)).map (applyPhaseKick cfg c))
      ++ (if cfg.insert_barrier then [Op.barrier] else [])

/-- Embedding of `QFTAdder._apply_iqft`: the inverse QFT gate on `A`
(nothing when `skip_qft`). -/
def applyIQFTOps (cfg : AdderCfg) : List Op :=
  if cfg.skip_qft then [] else [Op.iqftGate cfg.A_reg.size]

/-- The full operation list `QFTAdder.build` appends, in order. -/
def adderBuildOps (cfg : AdderCfg) : List Op :=
  applyQFTOps cfg ++ kickbackOps cfg ++ applyIQFTOps cfg

/-- Embedding of `QFTAdder.build` (qft_adder.py lines 207-221): create the circuit
from the (possibly deduplicated) registers, then append the QFT, the phase
kickbacks and the inverse QFT, and return the circuit. -/
def adderBuild (cfg : AdderCfg) : Except PyError Circuit :=
  match newCircuit (adderCircuitRegs cfg) cfg.label with
  | .error e => .error e
  | .ok c => .ok ⟨c.regs, c.name, adderBuildOps cfg⟩

/- ===================== easy adder claims: C4, C7, C10 ===================== -/

/-- C4 (counterexample). The claim states that whenever both registers are
supplied with `target.size > operand.size`, construction succeeds.  The code
instead requires `A.size = B.size + 1` exactly: with `A` of size 5 and `B` of
size 2 we have `5 > 2`, yet `QFTAdder.__init__` raises `ValueError`. -/
theorem C4_counterexample_strict_succ :
    2 < 5 ∧
      adderInit 0 false false (some ⟨5, "A"⟩) (some ⟨2, "B"⟩) none false false
        = .error .valueError := by
  constructor
  · decide
  · rfl

/-- C4 (amended). `QFTAdder` construction with both external registers succeeds
exactly when `A.size = B.size + 1` (not merely `A.size > B.size`); supplying
exactly one of the two registers raises `ValueError`. -/
theorem C4_adder_init_errors (n : ℕ) (sub skip : Bool) (A B : QReg)
    (lbl : Option String) (dbg bar : Bool) :
    (exceptOk (adderInit n sub skip (some A) (some B) lbl dbg bar)
        = (A.size == B.size + 1)) ∧
      adderInit n sub skip (some A) none lbl dbg bar = .error .valueError ∧
      adderInit n sub skip none (some B) lbl dbg bar = .error .valueError := by
  refine ⟨?_, rfl, rfl⟩
  by_cases h : A.size = B.size + 1
  · simp [adderInit, h, exceptOk]
  · simp [adderInit, h, exceptOk]

/-- C7. The adder's phase-angle function: for every distance `d`,
`encode_angle` yields exactly `pi / 2 ^ d` in addition mode and `-(pi / 2 ^ d)`
in subtraction mode, as exact values of the same real-valued expression. -/
theorem C7_encode_angle_exact (d : ℕ) :
    encode_angle false d = Real.pi / 2 ^ d ∧
      encode_angle true d = -(Real.pi / 2 ^ d) := by
  constructor <;> simp [encode_angle]

/-- C10. Internal-mode construction (`A` and `B` both absent) always succeeds,
for every `num_qubits`, with no validation of `num_qubits`: the allocated target
has size `num_qubits + 1` and the operand size `num_qubits`, so the target is one
qubit wider; in particular the default `num_qubits = 0` is accepted and yields a
zero-width operand register. -/
theorem C10_internal_init_total (n : ℕ) (sub skip : Bool) (lbl : Option String)
    (dbg bar : Bool) :
    ((adderInit n sub skip none none lbl dbg bar).map
        (fun cfg => (cfg.A_reg.size, cfg.B_reg.size, cfg.owns_registers))
      = .ok (n + 1, n, true)) ∧
      ((adderInit 0 sub skip none none lbl dbg bar).map
          (fun cfg => (cfg.A_reg.size, cfg.B_reg.size, cfg.owns_registers))
        = .ok (1, 0, true)) :=
  ⟨rfl, rfl⟩

/- ===================== QFTMultiplier ===================== -/

/-- The configuration state a successfully constructed `QFTMultiplier` instance
holds (the attributes set by `QFTMultiplier.__init__`). -/
structure MultCfg where
  M_reg : QReg
  N_reg : QReg
  Y_reg : QReg
  inverse : Bool
  skip_qft : Bool
  debug : Bool
  insert_barrier : Bool
  label : String
deriving DecidableEq

/-- Embedding of `QFTMultiplier.__init__` (qft_multiplier.py lines 96-115):
`required_size = M.size + N.size`; if no target is supplied, allocate
`Y = QuantumRegister(required_size, 'Y')`; if one is supplied with
`len(target) < required_size`, raise `ValueError`, else use it. -/
def multiplierInit (multiplicand multiplier : QReg) (target : Option QReg)
    (inverse skip_qft insert_barrier debug : Bool) (label : Option String) :
    Except PyError MultCfg :=
  let required_size := multiplicand.size + multiplier.size
  let lbl := label.getD (if inverse then "|M÷N⟩" else "|M×N⟩")
  match target with
  | none =>
      .ok ⟨multiplicand, multiplier, ⟨required_size, "Y"⟩,
           inverse, skip_qft, debug, insert_barrier, lbl⟩
  | some t =>
      if t.size < required_size then .error .valueError
      else .ok ⟨multiplicand, multiplier, t, inverse, skip_qft, debug, insert_barrier, lbl⟩

/-- The register list `QFTMultiplier._create_circuit` declares:
`QuantumCircuit(self.Y_reg, self.M_reg, self.N_reg, name=...)` — passed through
directly, with no deduplication step. -/
def multCircuitRegs (cfg : MultCfg) : List QReg :=
  [cfg.Y_reg, cfg.M_reg, cfg.N_reg]

/-- Embedding of `QFTMultiplier._create_circuit`. -/
def multCreateCircuit (cfg : MultCfg) : Except PyError Circuit :=
  newCircuit (multCircuitRegs cfg) cfg.label

/-- Operations `QFTMultiplier._apply_qft` appends. -/
def multApplyQFTOps (cfg : MultCfg) : List Op :=
  if cfg.skip_qft then []
  else [Op.qftGate cfg.Y_reg.size] ++ (if cfg.insert_barrier then [Op.barrier] else [])

/-- Operations `QFTMultiplier._apply_iqft` appends. -/
def multApplyIQFTOps (cfg : MultCfg) : List Op :=
  if cfg.skip_qft then [] else [Op.iqftGate cfg.Y_reg.size]

/-- The parameter names of `QFTAdder.__init__`
(`def __init__(self, num_qubits=0, subtract=False, skip_qft=False, A=None,
B=None, label=None, debug=False, insert_barrier=False)`). -/
def qftAdderParamNames : List String :=
  ["num_qubits", "subtract", "skip_qft", "A", "B", "label", "debug", "insert_barrier"]

/-- The keyword arguments `QFTMultiplier._create_C_ADD` passes in the call
`QFTAdder(target=self.Y_reg, operand=self.M_reg, inverse=self.inverse, skip_qft=True)`
(qft_multiplier.py line 184). -/
def cADDCallKwargs : List String := ["target", "operand", "inverse", "skip_qft"]

/-- Embedding of `QFTMultiplier._create_C_ADD` under Python call semantics: a call
binds every keyword argument to a parameter of the callee before the callee's body
runs, and raises `TypeError` on an unexpected keyword.  `QFTAdder.__init__` has no
parameters named `target`, `operand` or `inverse`, so the binding check fails and
the call raises `TypeError`; the success branch (returning the controlled adder
gate the method intends to build) is unreachable. -/
def multCreateCADD (cfg : MultCfg) : Except PyError Gate :=
  if cADDCallKwargs.all (fun k => qftAdderParamNames.contains k) then
    .ok (.cAdder cfg.Y_reg.size cfg.M_reg.size cfg.inverse)
  else .error .typeError

/-- The qubit arguments `list(reg)` expands to: every qubit of the register. -/
def regQubits (r : QReg) : List (QReg × ℕ) :=
  (List.range r.size).map fun k => (r, k)

/-- Embedding of the loop body of `QFTMultiplier._apply_C_ADD`
(qft_multiplier.py lines 186-201), generalized over the registers:
`for i in range(n): for j in range(2**i): append(c_add_gate, [N[i]] + list(Y) + list(M))`,
with a barrier after each outer iteration when enabled. -/
def cADDOpsAux (Nreg Y M : QReg) (g : Gate) (bar : Bool) (n : ℕ) : List Op :=
  (List.range n).flatMap fun i =>
    ((List.range (2 ^ i)).map fun _ =>
        Op.cgateApp g ((Nreg, i) :: (regQubits Y ++ regQubits M)))
      ++ (if bar then [Op.barrier] else [])

/-- The operations `QFTMultiplier._apply_C_ADD` appends. -/
def applyCADDOps (cfg : MultCfg) (g : Gate) : List Op :=
  cADDOpsAux cfg.N_reg cfg.Y_reg cfg.M_reg g cfg.insert_barrier cfg.N_reg.size

/-- Embedding of `QFTMultiplier.build` (qft_multiplier.py lines 203-223):
`_create_circuit`, `_apply_qft`, `_apply_C_ADD` (which first calls
`_create_C_ADD`), `_apply_iqft`, then return the circuit.  Any exception
raised along the way propagates to the caller. -/
def multiplierBuild (cfg : MultCfg) : Except PyError Circuit :=
  match multCreateCircuit cfg with
  | .error e => .error e
  | .ok c =>
      let c1 : Circuit := ⟨c.regs, c.name, c.ops ++ multApplyQFTOps cfg⟩
      match multCreateCADD cfg with
      | .error e => .error e
      | .ok g =>
          let c2 : Circuit := ⟨c1.regs, c1.name, c1.ops ++ applyCADDOps cfg g⟩
          .ok ⟨c2.regs, c2.name, c2.ops ++ multApplyIQFTOps cfg⟩

/-- The keyword-binding check of the `_create_C_ADD` call fails (the keyword
`target` is not a `QFTAdder.__init__` parameter), so the call raises `TypeError`
for every multiplier configuration. -/
theorem multCreateCADD_raises (cfg : MultCfg) :
    multCreateCADD cfg = .error .typeError := rfl

/- ===================== multiplier claims: C1, C3, C6, C8, C9 ===================== -/

/-- Predicate: the operation is an application of the controlled adder gate whose
control qubit is `Nreg[i]`. -/
def isCADDCtrl (Nreg : QReg) (i : ℕ) : Op → Bool
  | .cgateApp _ (q :: _) => decide (q = (Nreg, i))
  | _ => false

/-- Predicate: the operation is an application of the controlled adder gate. -/
def isCADD : Op → Bool
  | .cgateApp _ _ => true
  | _ => false

theorem countP_replicate {α : Type} (p : α → Bool) (k : ℕ) (a : α) :
    (List.replicate k a).countP p = if p a then k else 0 := by
  induction k with
  | zero => simp
  | succ k ih =>
      by_cases hp : p a <;>
        simp [List.replicate_succ, List.countP_cons, ih, hp]

theorem cADD_countP_ctrl (Nreg Y M : QReg) (g : Gate) (bar : Bool) (n i : ℕ) :
    (cADDOpsAux Nreg Y M g bar n).countP (isCADDCtrl Nreg i)
      = if i < n then 2 ^ i else 0 := by
  induction n with
  | zero => simp [cADDOpsAux]
  | succ n ih =>
      rw [cADDOpsAux, List.range_succ, List.flatMap_append, List.flatMap_singleton,
        List.countP_append, ← cADDOpsAux, ih, List.countP_append, List.map_const',
        List.length_range, countP_replicate]
      have hbar : (if bar then [Op.barrier] else []).countP (isCADDCtrl Nreg i) = 0 := by
        cases bar <;> simp [isCADDCtrl]
      rw [hbar]
      by_cases hin : i = n
      · subst hin
        simp [isCADDCtrl, Nat.lt_irrefl, Nat.lt_succ_iff]
      · have : (isCADDCtrl Nreg i (Op.cgateApp g ((Nreg, n) :: (regQubits Y ++ regQubits M))))
            = false := by
          simp [isCADDCtrl]
          exact fun h => absurd h.symm hin
        rw [this]
        by_cases hlt : i < n
        · simp [hlt, Nat.lt_succ_of_lt hlt]
        · have : ¬ i < n + 1 := by omega
          simp [hlt, this]

theorem cADD_countP_total (Nreg Y M : QReg) (g : Gate) (bar : Bool) (n : ℕ) :
    (cADDOpsAux Nreg Y M g bar n).countP isCADD = 2 ^ n - 1 := by
  induction n with
  | zero => simp [cADDOpsAux]
  | succ n ih =>
      rw [cADDOpsAux, List.range_succ, List.flatMap_append, List.flatMap_singleton,
        List.countP_append, ← cADDOpsAux, ih, List.countP_append, List.map_const',
        List.length_range, countP_replicate]
      have hbar : (if bar then [Op.barrier] else []).countP isCADD = 0 := by
        cases bar <;> simp [isCADD]
      rw [hbar]
      have hg : isCADD (Op.cgateApp g ((Nreg, n) :: (regQubits Y ++ regQubits M))) = true := rfl
      rw [hg]
      have h1 : 1 ≤ 2 ^ n := Nat.one_le_two_pow
      have h2 : 2 ^ (n + 1) = 2 ^ n + 2 ^ n := by rw [pow_succ]; omega
      simp only [if_pos]
      omega

/-- The unit-adder application sequence as the spec states it: for each bit
position `i` of `N`, ascending, exactly `2 ^ i` consecutive applications of the
controlled adder gate, controlled by `N[i]` and acting on `Y` and `M`. -/
def cADDSpec (Nreg Y M : QReg) (g : Gate) (n : ℕ) : List Op :=
  (List.range n).flatMap fun i =>
    List.replicate (2 ^ i) (Op.cgateApp g ((Nreg, i) :: (regQubits Y ++ regQubits M)))

theorem cADD_spec_eq (Nreg Y M : QReg) (g : Gate) (n : ℕ) :
    cADDOpsAux Nreg Y M g false n = cADDSpec Nreg Y M g n := by
  unfold cADDOpsAux cADDSpec
  refine List.flatMap_congr ?_
  intro i _
  simp [List.map_const', List.length_range]

/-- The concrete multiplier used for C1's failing input:
`M` of width 2, `N` of width 2, auto-allocated accumulator `Y` of width 4. -/
def c1cfg : MultCfg := ⟨⟨2, "M"⟩, ⟨2, "N"⟩, ⟨4, "Y"⟩, false, false, false, false, "|M×N⟩"⟩

/-- C1 (code bug).  The claim says every successfully constructed multiplier's
`build()` completes without raising; in the code, `build()` always raises
`TypeError`, because `_create_C_ADD` calls `QFTAdder` with the keyword arguments
`target`, `operand` and `inverse`, none of which is a `QFTAdder.__init__`
parameter (they are named `A`, `B` and `subtract`).  For every successfully
constructed instance whose three registers have distinct names (so that circuit
creation itself passes), `build()` raises `TypeError`. -/
theorem C1_build_raises_type_error (M N : QReg) (t : Option QReg)
    (inv skip bar dbg : Bool) (lbl : Option String) (cfg : MultCfg)
    (_hinit : multiplierInit M N t inv skip bar dbg lbl = .ok cfg)
    (hnames : ((multCircuitRegs cfg).map QReg.name).Nodup) :
    multiplierBuild cfg = .error .typeError := by
  simp [multiplierBuild, multCreateCircuit, newCircuit, hnames, multCreateCADD_raises]

/-- C1 (witness): the concrete failing input, constructed successfully, on which
`build()` raises `TypeError`. -/
theorem C1_build_raises_type_error_witness :
    multiplierInit ⟨2, "M"⟩ ⟨2, "N"⟩ none false false false false none = .ok c1cfg ∧
      ((multCircuitRegs c1cfg).map QReg.name).Nodup ∧
      multiplierBuild c1cfg = .error .typeError :=
  ⟨rfl, by decide,
    C1_build_raises_type_error ⟨2, "M"⟩ ⟨2, "N"⟩ none false false false false none c1cfg rfl
      (by decide)⟩

/-- The concrete multiplier of the spec's worked example for C3:
`M` of width 2, `N` of width 2, explicit accumulator `Y` of width 4. -/
def c3cfg : MultCfg := ⟨⟨2, "M"⟩, ⟨2, "N"⟩, ⟨4, "Y"⟩, false, false, false, false, "|M×N⟩"⟩

/-- C3 (code bug).  The claim asserts the built circuit maps the accumulator to
`(y + m*n) mod 2^size(Y)` (for the spec's concrete case: `Y must end as 6`); but
`QFTMultiplier.build` never returns a circuit at all: on the concrete case it
raises `TypeError` (from the mis-keyworded `QFTAdder` call inside
`_create_C_ADD`), and in general `build()` raises on every configuration. -/
theorem C3_multiplier_build_never_returns :
    (multiplierInit ⟨2, "M"⟩ ⟨2, "N"⟩ (some ⟨4, "Y"⟩) false false false false none
        = .ok c3cfg ∧
      multiplierBuild c3cfg = .error .typeError) ∧
    ∀ (cfg : MultCfg), exceptOk (multiplierBuild cfg) = false := by
  refine ⟨⟨rfl, rfl⟩, ?_⟩
  intro cfg
  unfold multiplierBuild
  cases hcc : multCreateCircuit cfg with
  | error e => rfl
  | ok c0 =>
      rw [multCreateCADD_raises]
      rfl

/-- The concrete multiplier used for C6's failing input:
`M` of width 1, `N` of width 3, auto-allocated accumulator `Y` of width 4. -/
def c6cfg : MultCfg := ⟨⟨1, "M"⟩, ⟨3, "N"⟩, ⟨4, "Y"⟩, false, false, false, false, "|M×N⟩"⟩

/-- C6 (code bug).  The repetition schedule of `_apply_C_ADD` is exactly as the
claim describes it — for each bit `i` of `N`, ascending, `2 ^ i` applications of
the controlled adder controlled by `N[i]` acting on `Y` and `M`, `2 ^ n - 1`
applications in total — but no circuit built by `QFTMultiplier` ever contains
them: `build()` raises `TypeError` inside `_create_C_ADD` before `_apply_C_ADD`
runs (shown here on the concrete failing input). -/
theorem C6_controlled_adder_repetitions :
    (multiplierInit ⟨1, "M"⟩ ⟨3, "N"⟩ none false false false false none = .ok c6cfg ∧
        multiplierBuild c6cfg = .error .typeError) ∧
      (∀ (cfg : MultCfg) (g : Gate) (i : ℕ), i < cfg.N_reg.size →
          (applyCADDOps cfg g).countP (isCADDCtrl cfg.N_reg i) = 2 ^ i) ∧
      (∀ (cfg : MultCfg) (g : Gate),
          (applyCADDOps cfg g).countP isCADD = 2 ^ cfg.N_reg.size - 1) ∧
      (∀ (cfg : MultCfg) (g : Gate), cfg.insert_barrier = false →
          applyCADDOps cfg g = cADDSpec cfg.N_reg cfg.Y_reg cfg.M_reg g cfg.N_reg.size) := by
  refine ⟨⟨rfl, rfl⟩, ?_, ?_, ?_⟩
  · intro cfg g i hi
    rw [applyCADDOps, cADD_countP_ctrl, if_pos hi]
  · intro cfg g
    rw [applyCADDOps, cADD_countP_total]
  · intro cfg g hbar
    rw [applyCADDOps, hbar, cADD_spec_eq]

/-- C6 (witness): the repetition counts evaluated on a concrete multiplier
(`N` of width 3, bit position 2). -/
theorem C6_controlled_adder_repetitions_witness :
    (applyCADDOps c6cfg (Gate.cAdder 4 1 false)).countP (isCADDCtrl c6cfg.N_reg 2)
        = 2 ^ 2 ∧
      (applyCADDOps c6cfg (Gate.cAdder 4 1 false)).countP isCADD = 2 ^ 3 - 1 ∧
      applyCADDOps c6cfg (Gate.cAdder 4 1 false)
        = cADDSpec c6cfg.N_reg c6cfg.Y_reg c6cfg.M_reg (Gate.cAdder 4 1 false)
            c6cfg.N_reg.size :=
  ⟨C6_controlled_adder_repetitions.2.1 c6cfg (Gate.cAdder 4 1 false) 2 (by decide),
   C6_controlled_adder_repetitions.2.2.1 c6cfg (Gate.cAdder 4 1 false),
   C6_controlled_adder_repetitions.2.2.2 c6cfg (Gate.cAdder 4 1 false) rfl⟩

/-- The register supplied twice in C8's counterexample. -/
def c8R : QReg := ⟨2, "R"⟩

/-- The multiplier constructed with the same register as both multiplicand and
multiplier (construction succeeds: only the accumulator size is validated). -/
def c8cfg : MultCfg := ⟨c8R, c8R, ⟨4, "Y"⟩, false, false, false, false, "|M×N⟩"⟩

/-- C8 (counterexample).  The claim says every component deduplicates identical
register references before declaring them, so that `build()` never fails because
of a duplicated register.  `QFTMultiplier._create_circuit` does not deduplicate:
supplying the same register as multiplicand and multiplier yields the declared
register list `[Y, R, R]`, and `build()` fails with qiskit's duplicate-register
`CircuitError`. -/
theorem C8_counterexample_duplicate_register :
    multiplierInit c8R c8R none false false false false none = .ok c8cfg ∧
      multCircuitRegs c8cfg = [⟨4, "Y"⟩, c8R, c8R] ∧
      (multCircuitRegs c8cfg).count c8R = 2 ∧
      multiplierBuild c8cfg = .error .circuitError :=
  ⟨rfl, rfl, by decide, rfl⟩

/-- C8 (amended).  Only the adder deduplicates: `QFTAdder._create_circuit`'s
declared register list contains each distinct register exactly once (for every
successfully constructed adder), while `QFTMultiplier._create_circuit` declares
`[Y, M, N]` verbatim with no deduplication. -/
theorem C8_adder_dedups_multiplier_does_not :
    (∀ (n : ℕ) (sub skip : Bool) (A B : Option QReg) (lbl : Option String)
        (dbg bar : Bool) (cfg : AdderCfg),
        adderInit n sub skip A B lbl dbg bar = .ok cfg →
          (adderCircuitRegs cfg).Nodup ∧ cfg.A_reg ∈ adderCircuitRegs cfg ∧
            cfg.B_reg ∈ adderCircuitRegs cfg) ∧
      ∀ (mcfg : MultCfg), multCircuitRegs mcfg = [mcfg.Y_reg, mcfg.M_reg, mcfg.N_reg] := by
  constructor
  · intro n sub skip A B lbl dbg bar cfg h
    match A, B with
    | some a, some b =>
        by_cases hs : a.size = b.size + 1
        · rw [adderInit, if_neg (fun hne => hne hs)] at h
          have hne : a ≠ b := by
            intro he
            rw [he] at hs
            omega
          injection h with h1
          subst h1
          have hd : dedupRegs [a, b] = [a, b] := by
            simp [dedupRegs, List.foldl, Ne.symm hne]
          simp [adderCircuitRegs, hd, hne]
        · rw [adderInit, if_pos hs] at h
          exact Except.noConfusion h
    | some a, none => exact Except.noConfusion h
    | none, some b => exact Except.noConfusion h
    | none, none =>
        injection h with h1
        subst h1
        refine ⟨?_, by simp [adderCircuitRegs], by simp [adderCircuitRegs]⟩
        simp [adderCircuitRegs]
  · intro mcfg
    rfl

/-- The external adder used in C8's witness. -/
def c8acfg : AdderCfg := ⟨⟨3, "X"⟩, ⟨2, "W"⟩, 2, false, false, false, "|A+B⟩", false, false⟩

/-- C8 (witness): evaluated on a concrete external adder and a concrete multiplier. -/
theorem C8_adder_dedups_multiplier_does_not_witness :
    ((adderCircuitRegs c8acfg).Nodup ∧ c8acfg.A_reg ∈ adderCircuitRegs c8acfg ∧
        c8acfg.B_reg ∈ adderCircuitRegs c8acfg) ∧
      multCircuitRegs c8cfg = [c8cfg.Y_reg, c8cfg.M_reg, c8cfg.N_reg] :=
  ⟨C8_adder_dedups_multiplier_does_not.1 0 false false (some ⟨3, "X"⟩) (some ⟨2, "W"⟩)
      none false false c8acfg rfl,
   C8_adder_dedups_multiplier_does_not.2 c8cfg⟩

/- ===================== C9: instance state across build() ===================== -/

/-- A `QFTAdder` instance as Python state: the construction-time configuration
plus the `adder_circuit` attribute (absent before the first `build()`). -/
structure AdderInstance where
  cfg : AdderCfg
  adder_circuit : Option Circuit
deriving DecidableEq

/-- Embedding of `QFTAdder.build` as a state transformation on the instance:
`build` assigns the freshly created circuit to `self.adder_circuit`
(`_create_circuit`), appends all operations to it, and returns it — so on
success the instance's `adder_circuit` attribute is exactly the returned
circuit.  On an exception the attribute keeps whatever it held before. -/
def adderBuildSt (s : AdderInstance) : Except PyError (Circuit × AdderInstance) :=
  match adderBuild s.cfg with
  | .error e => .error e
  | .ok c => .ok (c, ⟨s.cfg, some c⟩)

/-- The internal-mode adder instance (num_qubits 1) used for C9, before its
first `build()` call. -/
def c9inst : AdderInstance :=
  ⟨⟨⟨2, "A"⟩, ⟨1, "B"⟩, 1, true, false, false, "|A+B⟩", false, false⟩, none⟩

/-- The circuit `build()` returns on `c9inst`'s configuration. -/
def c9circ : Circuit :=
  ⟨[⟨2, "A"⟩, ⟨1, "B"⟩], "|A+B⟩", adderBuildOps c9inst.cfg⟩

/-- C9 (counterexample).  The claim says completing `build()` leaves no
component attribute referencing the returned circuit.  On the concrete instance,
`build()` succeeds, returns `c9circ`, and afterwards the instance's
`adder_circuit` attribute is exactly `some c9circ` — a retained reference to the
circuit handed to the caller. -/
theorem C9_counterexample_retained_reference :
    adderBuildSt c9inst = .ok (c9circ, ⟨c9inst.cfg, some c9circ⟩) := rfl

/-- C9 (amended).  `build()` stores the circuit it returns in an instance
attribute (`adder_circuit`), so the instance does keep a reference to it; but
the result of `build()` does not depend on that stored attribute — each call
recreates the circuit from the configuration alone — so a later `build()` on
the same instance only rebinds the attribute and cannot alter a previously
returned circuit. -/
theorem C9_build_result_ignores_stored_circuit (cfg : AdderCfg) (s s2 : Option Circuit) :
    adderBuildSt ⟨cfg, s⟩ = adderBuildSt ⟨cfg, s2⟩ ∧
      ∀ (c : Circuit) (st : AdderInstance),
        adderBuildSt ⟨cfg, s⟩ = .ok (c, st) →
          st.adder_circuit = some c ∧ st.cfg = cfg := by
  constructor
  · rfl
  · intro c st h
    unfold adderBuildSt at h
    cases hb : adderBuild cfg with
    | error e => rw [hb] at h; exact Except.noConfusion h
    | ok c0 =>
        rw [hb] at h
        simp only [Except.ok.injEq, Prod.mk.injEq] at h
        obtain ⟨h1, h2⟩ := h
        subst h1
        rw [← h2]
        exact ⟨rfl, rfl⟩

/-- C9 (witness): on the concrete instance, the build result is the same
whatever the stored attribute held, and the post-build attribute is exactly the
returned circuit. -/
theorem C9_build_result_ignores_stored_circuit_witness :
    adderBuildSt ⟨c9inst.cfg, none⟩ = adderBuildSt ⟨c9inst.cfg, some c9circ⟩ ∧
      (AdderInstance.mk c9inst.cfg (some c9circ)).adder_circuit = some c9circ ∧
      (AdderInstance.mk c9inst.cfg (some c9circ)).cfg = c9inst.cfg :=
  ⟨(C9_build_result_ignores_stored_circuit c9inst.cfg none (some c9circ)).1,
   ((C9_build_result_ignores_stored_circuit c9inst.cfg none (some c9circ)).2 c9circ
      ⟨c9inst.cfg, some c9circ⟩ rfl).1,
   ((C9_build_result_ignores_stored_circuit c9inst.cfg none (some c9circ)).2 c9circ
      ⟨c9inst.cfg, some c9circ⟩ rfl).2⟩

/- ===================== C5: the adder's emitted gate order ===================== -/

/-- The rotation angle as the spec words it: `pi / 2 ^ (t - c)`, negated in
subtraction mode (kept as the rational multiple of pi). -/
def specAngleQ (sub : Bool) (c t : ℕ) : ℚ :=
  if sub then -(1 / 2 ^ (t - c)) else 1 / 2 ^ (t - c)

/-- The gate sequence as the spec describes `build()`: a forward QFT on `X`
(omitted under `skip_qft`), then for each operand bit `c` ascending and each
target bit `t` ascending from `c`, the controlled-phase rotation with control
`A[c]` (the operand register, `B_reg` in the code), target `X[t]` (the target
register, `A_reg` in the code) and angle `pi / 2 ^ (t - c)` (negated for
subtraction), then an inverse QFT on `X` (omitted under `skip_qft`). -/
def specAdderSequence (cfg : AdderCfg) : List Op :=
  (if cfg.skip_qft then [] else [Op.qftGate cfg.A_reg.size])
    ++ ((List.range cfg.B_reg.size).flatMap fun c =>
          (List.range' c (cfg.A_reg.size - c)).map fun t =>
            Op.cp (specAngleQ cfg.subtract c t) (cfg.B_reg, c) (cfg.A_reg, t))
    ++ (if cfg.skip_qft then [] else [Op.iqftGate cfg.A_reg.size])

/-- Dropping the cosmetic barriers from an operation list. -/
def removeBarriers (L : List Op) : List Op :=
  L.filter fun op => decide (op ≠ Op.barrier)

theorem encodeAngleQ_spec (sub : Bool) (c t : ℕ) :
    encodeAngleQ sub (t - c) = specAngleQ sub c t := by
  cases sub <;> rfl

/-- C5.  Modulo the optional cosmetic barriers, `build()` emits exactly the
spec's sequence: forward QFT (unless skipped), the controlled-phase rotations
over ascending `c` and ascending `t ≥ c` with angle `pi / 2 ^ (t - c)` (negated
in subtraction mode), inverse QFT (unless skipped); with barriers disabled the
emitted list is exactly that sequence, and under `skip_qft` every emitted
operation is a controlled-phase rotation or a barrier. -/
theorem C5_build_gate_order (cfg : AdderCfg) :
    removeBarriers (adderBuildOps cfg) = specAdderSequence cfg ∧
      (cfg.insert_barrier = false → adderBuildOps cfg = specAdderSequence cfg) ∧
      ∀ (sub : Bool) (c t : ℕ),
        ((specAngleQ sub c t : ℚ) : ℝ) * Real.pi
          = if sub then -(Real.pi / 2 ^ (t - c)) else Real.pi / 2 ^ (t - c) := by
  have hq : removeBarriers (applyQFTOps cfg)
      = (if cfg.skip_qft then [] else [Op.qftGate cfg.A_reg.size]) := by
    rcases hs : cfg.skip_qft <;> rcases hb : cfg.insert_barrier <;>
      simp [removeBarriers, applyQFTOps, hs, hb]
  have hkick : removeBarriers (kickbackOps cfg)
      = (List.range cfg.B_reg.size).flatMap fun c =>
          (List.range' c (cfg.A_reg.size - c)).map fun t =>
            Op.cp (specAngleQ cfg.subtract c t) (cfg.B_reg, c) (cfg.A_reg, t) := by
    unfold removeBarriers kickbackOps
    rw [List.filter_flatMap]
    refine List.flatMap_congr ?_
    intro c _
    rw [List.filter_append]
    have h1 : ((List.range' c (cfg.A_reg.size - c)).map (applyPhaseKick cfg c)).filter
        (fun op => decide (op ≠ Op.barrier))
        = (List.range' c (cfg.A_reg.size - c)).map (applyPhaseKick cfg c) := by
      rw [List.filter_eq_self]
      intro op hop
      rcases List.mem_map.mp hop with ⟨t, _, ht⟩
      subst ht
      simp [applyPhaseKick]
    have h2 : (if cfg.insert_barrier then [Op.barrier] else []).filter
        (fun op => decide (op ≠ Op.barrier)) = [] := by
      rcases hb : cfg.insert_barrier <;> simp
    rw [h1, h2, List.append_nil]
    refine List.map_congr_left ?_
    intro t _
    rw [applyPhaseKick, encodeAngleQ_spec]
  have hi : removeBarriers (applyIQFTOps cfg)
      = (if cfg.skip_qft then [] else [Op.iqftGate cfg.A_reg.size]) := by
    rcases hs : cfg.skip_qft <;> simp [removeBarriers, applyIQFTOps, hs]
  have hmain : removeBarriers (adderBuildOps cfg) = specAdderSequence cfg := by
    rw [adderBuildOps, specAdderSequence]
    rw [show removeBarriers (applyQFTOps cfg ++ kickbackOps cfg ++ applyIQFTOps cfg)
        = removeBarriers (applyQFTOps cfg) ++ removeBarriers (kickbackOps cfg)
            ++ removeBarriers (applyIQFTOps cfg) by
      simp [removeBarriers, List.filter_append]]
    rw [hq, hkick, hi]
  refine ⟨hmain, ?_, ?_⟩
  · intro hbar
    have hnb : adderBuildOps cfg = removeBarriers (adderBuildOps cfg) := by
      rw [removeBarriers, eq_comm, List.filter_eq_self]
      intro op hop
      rw [adderBuildOps] at hop
      rcases List.mem_append.mp hop with hop1 | hopi
      · rcases List.mem_append.mp hop1 with hopq | hopk
        · rcases hs : cfg.skip_qft <;> rw [applyQFTOps, hs] at hopq <;>
            simp [hbar] at hopq <;> simp [hopq]
        · rw [kickbackOps] at hopk
          rcases List.mem_flatMap.mp hopk with ⟨c, _, hc⟩
          rw [hbar] at hc
          rcases List.mem_append.mp hc with hcm | hcm
          · rcases List.mem_map.mp hcm with ⟨t, _, ht⟩
            subst ht
            simp [applyPhaseKick]
          · simp at hcm
      · rcases hs : cfg.skip_qft <;> rw [applyIQFTOps, hs] at hopi <;>
          simp at hopi <;> simp [hopi]
    rw [hnb, hmain]
  · intro sub c t
    cases sub
    · simp [specAngleQ]
      exact inv_mul_eq_div (2 ^ (t - c)) Real.pi
    · simp [specAngleQ]
      exact inv_mul_eq_div (2 ^ (t - c)) Real.pi

/-- The adder configuration used in C5's witness (internal, width 2, addition,
no barriers). -/
def c5cfg : AdderCfg := ⟨⟨3, "A"⟩, ⟨2, "B"⟩, 2, true, false, false, "|A+B⟩", false, false⟩

/-- C5 (witness): on a concrete adder with barriers disabled, the emitted list
is exactly the spec's sequence, and the rational angle times pi matches the
spec's real-valued angle at `c = 0`, `t = 2`. -/
theorem C5_build_gate_order_witness :
    adderBuildOps c5cfg = specAdderSequence c5cfg ∧
      ((specAngleQ false 0 2 : ℚ) : ℝ) * Real.pi
        = if false then -(Real.pi / 2 ^ (2 - 0)) else Real.pi / 2 ^ (2 - 0) :=
  ⟨(C5_build_gate_order c5cfg).2.1 rfl, (C5_build_gate_order c5cfg).2.2 false 0 2⟩

/- ===================== C2: computational-basis semantics of the adder ===================== -/

/-- The state of the target register `A` during an adder run on a
computational-basis input (the operand register is held at a classical basis
value throughout, since every gate of the adder only controls on it): either a
computational-basis value, or the Fourier-domain product state in which qubit
`t` carries relative phase `phase t` (measured in turns: the qubit is
`(|0> + exp(2 pi i (phase t)) |1>) / sqrt 2`). -/
inductive AState (p : ℕ) where
  | comp (x : ℕ)
  | fourier (phase : Fin p → ℚ)

/-- Modelled from the spec: the FourierTransform component — the file
`qutilities/qft/qft.py` is not under `src/`, only its package exports are.
Per section 4.1 it implements the discrete Fourier basis change on the register
with the result in natural bit order: the Draper convention in which, on basis
state `|x>` of width `p`, output qubit `t` carries relative phase `x / 2^(t+1)`
turns.  (This is the convention the adder's kickback angles, and the spec's
worked examples, require.) -/
def qftPhases (p x : ℕ) : Fin p → ℚ :=
  fun t => (x : ℚ) / 2 ^ (t.val + 1)

/-- Whether the phase configuration `phase` is exactly the QFT image of the
basis value `v`: each qubit's phase differs from `v / 2^(t+1)` by a whole
number of turns. -/
def coherentAt (p : ℕ) (phase : Fin p → ℚ) (v : ℕ) : Bool :=
  decide (∀ t : Fin p, ((phase t) - (v : ℚ) / 2 ^ (t.val + 1)).den = 1)

/-- Modelled from the spec: the inverse FourierTransform (section 4.1,
`Inverse(Forward(x)) = x` exactly for every basis state `x`).  On a phase state
that is the QFT image of some basis value `v < 2^p` it restores `|v>`; on any
other phase state a computational-basis measurement has no definite value
(`none`). -/
def decodeFourier (p : ℕ) (phase : Fin p → ℚ) : Option ℕ :=
  (List.range (2 ^ p)).find? (coherentAt p phase)

/-- One gate step of the adder circuit on the target-register state, with the
operand register `Breg` held at classical basis value `a`.  The QFT gate sends
basis `x` to its Fourier phases; a controlled-phase gate with control `B[c]`
and rational angle `theta` (in units of pi, hence `theta / 2` turns) adds that
phase to the target qubit exactly when bit `c` of `a` is set (the gate is
diagonal, so the control is untouched); the inverse QFT reads a coherent phase
state back; barriers do nothing.  Any other combination has no definite
computational-basis meaning for an adder run and yields `none`. -/
def adderStepOp (Areg Breg : QReg) (a : ℕ) :
    AState Areg.size → Op → Option (AState Areg.size)
  | AState.comp x, Op.qftGate n =>
      if n = Areg.size then some (AState.fourier (qftPhases Areg.size x)) else none
  | AState.fourier phase, Op.iqftGate n =>
      if n = Areg.size then (decodeFourier Areg.size phase).map AState.comp else none
  | AState.fourier phase, Op.cp theta ctrl tgt =>
      if ctrl.1 = Breg ∧ tgt.1 = Areg then
        if h : tgt.2 < Areg.size then
          some (AState.fourier (Function.update phase ⟨tgt.2, h⟩
            (phase ⟨tgt.2, h⟩ + (if a.testBit ctrl.2 then theta / 2 else 0))))
        else none
      else none
  | s, Op.barrier => some s
  | _, _ => none

/-- Run a list of operations from a starting state, failing as soon as one step
has no definite meaning. -/
def runOps (Areg Breg : QReg) (a : ℕ) :
    AState Areg.size → List Op → Option (AState Areg.size)
  | s, [] => some s
  | s, op :: rest =>
      match adderStepOp Areg Breg a s op with
      | none => none
      | some s2 => runOps Areg Breg a s2 rest

/-- The value measured on the target register after running the circuit `circ`
on computational-basis inputs `x` (target register) and `a` (operand register). -/
def measureAdderCircuit (cfg : AdderCfg) (circ : Circuit) (x a : ℕ) : Option ℕ :=
  match runOps cfg.A_reg cfg.B_reg a (AState.comp x) circ.ops with
  | some (AState.comp v) => some v
  | _ => none

/-- The phase contribution (in turns) of one operation to target qubit `t`. -/
def opKick (Areg Breg : QReg) (a : ℕ) (t : ℕ) : Op → ℚ
  | Op.cp theta ctrl tgt =>
      if ctrl.1 = Breg ∧ tgt.1 = Areg ∧ tgt.2 = t then
        (if a.testBit ctrl.2 then theta / 2 else 0)
      else 0
  | _ => 0

/-- Total phase contribution of an operation list to target qubit `t`. -/
def kickSum (Areg Breg : QReg) (a : ℕ) (t : ℕ) (L : List Op) : ℚ :=
  (L.map (opKick Areg Breg a t)).sum

/-- Operations the kickback stage may contain: a controlled-phase gate from the
operand register into a valid target qubit, or a barrier. -/
def phaseOp (Areg Breg : QReg) : Op → Prop
  | Op.cp _ ctrl tgt => ctrl.1 = Breg ∧ tgt.1 = Areg ∧ tgt.2 < Areg.size
  | Op.barrier => True
  | _ => False

/-- The low `min k (t+1)` bits of `a` weighted by their powers of two: the part
of `a` the kickback gates below position `k` deposit on target qubit `t`. -/
def bitsBelow (a k t : ℕ) : ℕ :=
  ((List.range k).map fun c => if c ≤ t then (a.testBit c).toNat * 2 ^ c else 0).sum

theorem runOps_append (Areg Breg : QReg) (a : ℕ) (L1 L2 : List Op)
    (s : AState Areg.size) :
    runOps Areg Breg a s (L1 ++ L2)
      = Option.bind (runOps Areg Breg a s L1)
          (fun s2 => runOps Areg Breg a s2 L2) := by
  induction L1 generalizing s with
  | nil => simp [runOps]
  | cons op rest ih =>
      rw [List.cons_append]
      simp only [runOps]
      cases adderStepOp Areg Breg a s op with
      | none => rfl
      | some s2 => exact ih s2

theorem runOps_cons_some {Areg Breg : QReg} {a : ℕ} {s s2 : AState Areg.size}
    {op : Op} (rest : List Op) (h : adderStepOp Areg Breg a s op = some s2) :
    runOps Areg Breg a s (op :: rest) = runOps Areg Breg a s2 rest := by
  simp [runOps, h]

theorem kickSum_nil (Areg Breg : QReg) (a t : ℕ) :
    kickSum Areg Breg a t [] = 0 := rfl

theorem kickSum_cons (Areg Breg : QReg) (a t : ℕ) (op : Op) (L : List Op) :
    kickSum Areg Breg a t (op :: L)
      = opKick Areg Breg a t op + kickSum Areg Breg a t L := by
  simp [kickSum]

theorem kickSum_append (Areg Breg : QReg) (a t : ℕ) (L1 L2 : List Op) :
    kickSum Areg Breg a t (L1 ++ L2)
      = kickSum Areg Breg a t L1 + kickSum Areg Breg a t L2 := by
  simp [kickSum]

theorem opKick_cp (Areg Breg : QReg) (a t : ℕ) (theta : ℚ) (ctrl tgt : QReg × ℕ)
    (h1 : ctrl.1 = Breg) (h2 : tgt.1 = Areg) :
    opKick Areg Breg a t (Op.cp theta ctrl tgt)
      = if tgt.2 = t then (if a.testBit ctrl.2 then theta / 2 else 0) else 0 := by
  by_cases ht : tgt.2 = t
  · simp [opKick, h1, h2, ht]
  · simp [opKick, ht]

/-- Running a list of phase operations from a Fourier state adds, on each
target qubit, exactly the sum of the individual gates' phase contributions. -/
theorem runOps_phase (Areg Breg : QReg) (a : ℕ) (L : List Op)
    (hL : ∀ op ∈ L, phaseOp Areg Breg op) (phase : Fin Areg.size → ℚ) :
    runOps Areg Breg a (AState.fourier phase) L
      = some (AState.fourier (fun t => phase t + kickSum Areg Breg a t.val L)) := by
  induction L generalizing phase with
  | nil => simp [runOps, kickSum_nil]
  | cons op rest ih =>
      have hop := hL op (List.mem_cons_self op rest)
      have hrest : ∀ op2 ∈ rest, phaseOp Areg Breg op2 :=
        fun op2 h2 => hL op2 (List.mem_cons_of_mem op h2)
      match op with
      | Op.barrier =>
          simp only [runOps, adderStepOp]
          rw [ih hrest phase]
          congr 1
          congr 1
          funext t
          rw [kickSum_cons]
          simp [opKick]
      | Op.cp theta ctrl tgt =>
          obtain ⟨h1, h2, h3⟩ := hop
          simp only [runOps, adderStepOp, if_pos (And.intro h1 h2), dif_pos h3]
          rw [ih hrest]
          congr 1
          congr 1
          funext t
          rw [kickSum_cons]
          rw [opKick_cp Areg Breg a t.val theta ctrl tgt h1 h2]
          by_cases ht : t = ⟨tgt.2, h3⟩
          · subst ht
            rw [Function.update_same, if_pos rfl]
            ring
          · rw [Function.update_noteq ht]
            have hvals : tgt.2 ≠ t.val := by
              intro he
              exact ht (Fin.ext he.symm)
            rw [if_neg hvals]
            ring

/-- `bitsBelow a k t` is the low `min k (t+1)` bits of `a`. -/
theorem bitsBelow_eq_mod (a k t : ℕ) :
    bitsBelow a k t = a % 2 ^ min k (t + 1) := by
  induction k with
  | zero => simp [bitsBelow, Nat.mod_one]
  | succ k ih =>
      rw [bitsBelow, List.range_succ, List.map_append, List.sum_append, ← bitsBelow, ih]
      by_cases hk : k ≤ t
      · have hmin1 : min k (t + 1) = k := by omega
        have hmin2 : min (k + 1) (t + 1) = k + 1 := by omega
        rw [hmin1, hmin2]
        simp only [List.map_cons, List.map_nil, List.sum_cons, List.sum_nil, if_pos hk]
        rw [Nat.mod_pow_succ, Nat.toNat_testBit]
        ring
      · have hmin1 : min k (t + 1) = t + 1 := by omega
        have hmin2 : min (k + 1) (t + 1) = t + 1 := by omega
        rw [hmin1, hmin2]
        simp [hk]

theorem sum_flatMap_rat {α : Type} (l : List α) (g : α → List ℚ) :
    (l.flatMap g).sum = (l.map fun x => (g x).sum).sum := by
  induction l with
  | nil => simp
  | cons x xs ih => simp [List.flatMap_cons, ih]

theorem sum_map_ite_eq (l : List ℕ) (hnd : l.Nodup) (t : ℕ) (g : ℕ → ℚ) :
    (l.map fun x => if x = t then g x else 0).sum = if t ∈ l then g t else 0 := by
  induction l with
  | nil => simp
  | cons x xs ih =>
      rcases List.nodup_cons.mp hnd with ⟨hx, hxs⟩
      by_cases hxt : x = t
      · subst hxt
        rw [List.map_cons, List.sum_cons, if_pos rfl, ih hxs, if_neg hx,
          if_pos (List.mem_cons_self x xs), add_zero]
      · rw [List.map_cons, List.sum_cons, if_neg hxt, ih hxs, zero_add]
        by_cases hm : t ∈ xs
        · rw [if_pos hm, if_pos (List.mem_cons_of_mem x hm)]
        · rw [if_neg hm, if_neg ?_]
          intro hmm
          rcases List.mem_cons.mp hmm with he | hin
          · exact hxt he.symm
          · exact hm hin

theorem mem_range'_iff (c t p : ℕ) (ht : t < p) :
    (t ∈ List.range' c (p - c)) ↔ c ≤ t := by
  rw [List.mem_range'_1]
  omega

theorem encodeAngleQ_div_two (sub : Bool) (c t : ℕ) (hct : c ≤ t) :
    encodeAngleQ sub (t - c) / 2
      = (2 ^ c : ℚ) * ((if sub then (-1 : ℚ) else 1) / 2 ^ (t + 1)) := by
  have hexp : (2 : ℚ) ^ (t + 1) = 2 ^ (t - c) * 2 * 2 ^ c := by
    rw [mul_assoc, ← pow_succ', ← pow_add]
    congr 1
    omega
  have h2 : (2 : ℚ) ^ (t - c) ≠ 0 := by positivity
  cases sub with
  | false =>
      simp only [encodeAngleQ, Bool.false_eq_true, if_false]
      rw [hexp]
      field_simp
  | true =>
      simp only [encodeAngleQ, if_true]
      rw [hexp]
      field_simp
      ring

theorem kickSum_inner (cfg : AdderCfg) (a t c : ℕ) (ht : t < cfg.A_reg.size) :
    ((List.range' c (cfg.A_reg.size - c)).map
        (opKick cfg.A_reg cfg.B_reg a t ∘ applyPhaseKick cfg c)).sum
      = if c ≤ t then (if a.testBit c then encodeAngleQ cfg.subtract (t - c) / 2 else 0)
        else 0 := by
  have hcongr : ∀ t' ∈ List.range' c (cfg.A_reg.size - c),
      (opKick cfg.A_reg cfg.B_reg a t ∘ applyPhaseKick cfg c) t'
        = if t' = t then
            (if a.testBit c then encodeAngleQ cfg.subtract (t' - c) / 2 else 0)
          else 0 := by
    intro t' _
    show opKick cfg.A_reg cfg.B_reg a t (applyPhaseKick cfg c t') = _
    rw [applyPhaseKick, opKick_cp cfg.A_reg cfg.B_reg a t _ _ _ rfl rfl]
  rw [List.map_congr_left hcongr,
    sum_map_ite_eq _ (List.nodup_range' _ _) t _,
    if_congr (mem_range'_iff c t _ ht) rfl rfl]

theorem kickSum_kickbacks (cfg : AdderCfg) (a t : ℕ) (ht : t < cfg.A_reg.size) :
    kickSum cfg.A_reg cfg.B_reg a t (kickbackOps cfg)
      = (if cfg.subtract then (-1 : ℚ) else 1) * (bitsBelow a cfg.B_reg.size t : ℚ)
          / 2 ^ (t + 1) := by
  rw [kickSum, kickbackOps, List.map_flatMap, sum_flatMap_rat]
  have hper : ∀ c ∈ List.range cfg.B_reg.size,
      ((((List.range' c (cfg.A_reg.size - c)).map (applyPhaseKick cfg c))
          ++ (if cfg.insert_barrier then [Op.barrier] else [])).map
            (opKick cfg.A_reg cfg.B_reg a t)).sum
        = (((if c ≤ t then (a.testBit c).toNat * 2 ^ c else 0 : ℕ)) : ℚ)
            * ((if cfg.subtract then (-1 : ℚ) else 1) / 2 ^ (t + 1)) := by
    intro c _
    rw [List.map_append, List.sum_append]
    have hbar0 : ((if cfg.insert_barrier then [Op.barrier] else []).map
        (opKick cfg.A_reg cfg.B_reg a t)).sum = 0 := by
      rcases hb : cfg.insert_barrier
      · simp
      · simp [opKick]
    rw [hbar0, add_zero, List.map_map, kickSum_inner cfg a t c ht]
    by_cases hct : c ≤ t
    · by_cases hbit : a.testBit c
      · rw [if_pos hct, if_pos hbit, if_pos hct, encodeAngleQ_div_two cfg.subtract c t hct,
          hbit]
        push_cast
        simp only [Bool.toNat_true, Nat.cast_one]
        ring
      · rw [if_pos hct, if_neg hbit, if_pos hct]
        simp only [Bool.not_eq_true] at hbit
        rw [hbit]
        push_cast
        simp only [Bool.toNat_false, Nat.cast_zero]
        ring
    · rw [if_neg hct, if_neg hct]
      push_cast
      ring
  rw [List.map_congr_left hper, List.sum_map_mul_right]
  have hcast : ((bitsBelow a cfg.B_reg.size t : ℕ) : ℚ)
      = (List.map (fun c => (((if c ≤ t then (a.testBit c).toNat * 2 ^ c else 0 : ℕ)) : ℚ))
          (List.range cfg.B_reg.size)).sum := by
    rw [bitsBelow, Nat.cast_list_sum, List.map_map]
    rfl
  rw [hcast]
  ring

theorem den_one_iff_intCast (r : ℚ) : r.den = 1 ↔ ∃ z : ℤ, r = (z : ℚ) := by
  constructor
  · intro h
    exact ⟨r.num, ((Rat.den_eq_one_iff r).mp h).symm⟩
  · rintro ⟨z, rfl⟩
    exact Rat.den_intCast z

theorem q_div_den_one {z : ℤ} {d : ℕ} (h : (2 ^ d : ℤ) ∣ z) :
    ((z : ℚ) / 2 ^ d).den = 1 := by
  obtain ⟨k, hk⟩ := h
  subst hk
  push_cast
  rw [mul_comm, mul_div_assoc, div_self (by positivity : ((2 : ℚ) ^ d) ≠ 0), mul_one]
  exact Rat.den_intCast k

/-- The low bits deposited by the kickbacks agree with the full operand value
modulo `2 ^ (t+1)`, as integers, whenever `a < 2 ^ q`. -/
theorem bitsBelow_int_modEq (a q t : ℕ) (ha : a < 2 ^ q) :
    ((bitsBelow a q t : ℕ) : ℤ) ≡ (a : ℤ) [ZMOD (2 ^ (t + 1) : ℤ)] := by
  rw [bitsBelow_eq_mod]
  rcases le_or_lt q (t + 1) with hq | hq
  · have hmin : min q (t + 1) = q := by omega
    rw [hmin, Nat.mod_eq_of_lt ha]
  · have hmin : min q (t + 1) = t + 1 := by omega
    rw [hmin]
    have hcast : (((a % 2 ^ (t + 1) : ℕ)) : ℤ) = (a : ℤ) % ((2 : ℤ) ^ (t + 1)) := by
      push_cast
      rfl
    rw [hcast]
    exact Int.emod_emod (a : ℤ) ((2 : ℤ) ^ (t + 1))

/-- The accumulated final phase configuration of the target register is the
exact QFT image of the modular sum (or difference). -/
theorem coherent_shifted (p q x a : ℕ) (sub : Bool) (ha : a < 2 ^ q) :
    coherentAt p
        (fun t => (x : ℚ) / 2 ^ (t.val + 1)
          + (if sub then (-1 : ℚ) else 1) * (bitsBelow a q t.val : ℚ) / 2 ^ (t.val + 1))
        (if sub then (((x : ℤ) - a) % (2 ^ p : ℤ)).toNat else (x + a) % 2 ^ p)
      = true := by
  rw [coherentAt, decide_eq_true_iff]
  intro t
  have htp : t.val + 1 ≤ p := t.isLt
  have hdvdp : ((2 : ℤ) ^ (t.val + 1)) ∣ ((2 : ℤ) ^ p) := pow_dvd_pow 2 htp
  have hB := bitsBelow_int_modEq a q t.val ha
  cases sub with
  | false =>
      have hvcast : (((x + a) % 2 ^ p : ℕ) : ℤ) = ((x : ℤ) + a) % ((2 : ℤ) ^ p) := by
        push_cast
        rfl
      have hcong : ((x : ℤ) + (bitsBelow a q t.val : ℤ))
          ≡ (((x + a) % 2 ^ p : ℕ) : ℤ) [ZMOD (2 ^ (t.val + 1) : ℤ)] := by
        rw [hvcast]
        have h1 : ((x : ℤ) + (bitsBelow a q t.val : ℤ))
            ≡ ((x : ℤ) + a) [ZMOD (2 ^ (t.val + 1) : ℤ)] :=
          (Int.ModEq.refl (x : ℤ)).add hB
        have h2 : ((x : ℤ) + a) ≡ ((x : ℤ) + a) % ((2 : ℤ) ^ p)
            [ZMOD (2 ^ (t.val + 1) : ℤ)] :=
          Int.ModEq.of_dvd hdvdp (Int.emod_emod ((x : ℤ) + a) ((2 : ℤ) ^ p)).symm
        exact h1.trans h2
      have hdvd : ((2 : ℤ) ^ (t.val + 1))
          ∣ ((x : ℤ) + (bitsBelow a q t.val : ℤ) - (((x + a) % 2 ^ p : ℕ) : ℤ)) := by
        have := (Int.modEq_iff_dvd.mp hcong)
        have h3 : ((x : ℤ) + (bitsBelow a q t.val : ℤ) - (((x + a) % 2 ^ p : ℕ) : ℤ))
            = -((((x + a) % 2 ^ p : ℕ) : ℤ) - ((x : ℤ) + (bitsBelow a q t.val : ℤ))) := by
          ring
        rw [h3]
        exact dvd_neg.mpr this
      simp only [Bool.false_eq_true, if_false]
      have hvq : (((x + a) % 2 ^ p : ℕ) : ℚ)
          = (((((x : ℤ) + a) % ((2 : ℤ) ^ p)) : ℤ) : ℚ) := by
        rw [← hvcast]
        exact (Int.cast_natCast _).symm
      have hre : (x : ℚ) / 2 ^ (t.val + 1)
            + 1 * (bitsBelow a q t.val : ℚ) / 2 ^ (t.val + 1)
            - (((x + a) % 2 ^ p : ℕ) : ℚ) / 2 ^ (t.val + 1)
          = ((((x : ℤ) + (bitsBelow a q t.val : ℤ)
              - (((x + a) % 2 ^ p : ℕ) : ℤ)) : ℤ) : ℚ) / 2 ^ (t.val + 1) := by
        rw [hvq]
        push_cast
        ring
      rw [hre]
      exact q_div_den_one hdvd
  | true =>
      have hnonneg : (0 : ℤ) ≤ ((x : ℤ) - a) % ((2 : ℤ) ^ p) :=
        Int.emod_nonneg _ (by positivity)
      have hvcast : (((((x : ℤ) - a) % (2 ^ p : ℤ)).toNat : ℕ) : ℤ)
          = ((x : ℤ) - a) % ((2 : ℤ) ^ p) := Int.toNat_of_nonneg hnonneg
      have hcong : ((x : ℤ) - (bitsBelow a q t.val : ℤ))
          ≡ ((((x : ℤ) - a) % (2 ^ p : ℤ)).toNat : ℤ) [ZMOD (2 ^ (t.val + 1) : ℤ)] := by
        rw [hvcast]
        have h1 : ((x : ℤ) - (bitsBelow a q t.val : ℤ))
            ≡ ((x : ℤ) - a) [ZMOD (2 ^ (t.val + 1) : ℤ)] :=
          (Int.ModEq.refl (x : ℤ)).sub hB
        have h2 : ((x : ℤ) - a) ≡ ((x : ℤ) - a) % ((2 : ℤ) ^ p)
            [ZMOD (2 ^ (t.val + 1) : ℤ)] :=
          Int.ModEq.of_dvd hdvdp (Int.emod_emod ((x : ℤ) - a) ((2 : ℤ) ^ p)).symm
        exact h1.trans h2
      have hdvd : ((2 : ℤ) ^ (t.val + 1))
          ∣ ((x : ℤ) - (bitsBelow a q t.val : ℤ)
              - ((((x : ℤ) - a) % (2 ^ p : ℤ)).toNat : ℤ)) := by
        have := (Int.modEq_iff_dvd.mp hcong)
        have h3 : ((x : ℤ) - (bitsBelow a q t.val : ℤ)
              - ((((x : ℤ) - a) % (2 ^ p : ℤ)).toNat : ℤ))
            = -(((((x : ℤ) - a) % (2 ^ p : ℤ)).toNat : ℤ)
                - ((x : ℤ) - (bitsBelow a q t.val : ℤ))) := by
          ring
        rw [h3]
        exact dvd_neg.mpr this
      simp only [if_true]
      have hre : (x : ℚ) / 2 ^ (t.val + 1)
            + (-1) * (bitsBelow a q t.val : ℚ) / 2 ^ (t.val + 1)
            - ((((((x : ℤ) - a) % (2 ^ p : ℤ)).toNat : ℕ)) : ℚ) / 2 ^ (t.val + 1)
          = ((((x : ℤ) - (bitsBelow a q t.val : ℤ)
              - ((((x : ℤ) - a) % (2 ^ p : ℤ)).toNat : ℤ)) : ℤ) : ℚ) / 2 ^ (t.val + 1) := by
        push_cast
        ring
      rw [hre]
      exact q_div_den_one hdvd

/-- At most one basis value below `2 ^ p` is coherent with a given phase
configuration. -/
theorem coherent_unique (p : ℕ) (phase : Fin p → ℚ) (v w : ℕ)
    (hv : v < 2 ^ p) (hw : w < 2 ^ p)
    (hcv : coherentAt p phase v = true) (hcw : coherentAt p phase w = true) :
    v = w := by
  cases p with
  | zero =>
      rw [pow_zero] at hv hw
      omega
  | succ s =>
      rw [coherentAt, decide_eq_true_iff] at hcv hcw
      have hts : s < s + 1 := Nat.lt_succ_self s
      obtain ⟨zv, hzv⟩ := (den_one_iff_intCast _).mp (hcv ⟨s, hts⟩)
      obtain ⟨zw, hzw⟩ := (den_one_iff_intCast _).mp (hcw ⟨s, hts⟩)
      have hdiff : ((w : ℚ) - v) / 2 ^ (s + 1) = ((zv - zw : ℤ) : ℚ) := by
        have h3 : (phase ⟨s, hts⟩ - (v : ℚ) / 2 ^ (s + 1))
            - (phase ⟨s, hts⟩ - (w : ℚ) / 2 ^ (s + 1)) = ((zv : ℚ)) - zw := by
          rw [hzv, hzw]
        calc ((w : ℚ) - v) / 2 ^ (s + 1)
            = (phase ⟨s, hts⟩ - (v : ℚ) / 2 ^ (s + 1))
              - (phase ⟨s, hts⟩ - (w : ℚ) / 2 ^ (s + 1)) := by ring
          _ = ((zv - zw : ℤ) : ℚ) := by rw [h3]; push_cast; ring
      have h4 : (w : ℚ) - v = ((zv - zw : ℤ) : ℚ) * 2 ^ (s + 1) := by
        rw [div_eq_iff (by positivity : ((2 : ℚ) ^ (s + 1)) ≠ 0)] at hdiff
        exact hdiff
      have h5 : (w : ℤ) - v = (zv - zw) * 2 ^ (s + 1) := by
        exact_mod_cast h4
      have h6 : ((2 : ℤ) ^ (s + 1)) ∣ ((w : ℤ) - v) := ⟨zv - zw, by rw [h5]; ring⟩
      have hvz : (v : ℤ) < 2 ^ (s + 1) := by exact_mod_cast hv
      have hwz : (w : ℤ) < 2 ^ (s + 1) := by exact_mod_cast hw
      have h7 : (w : ℤ) - v = 0 := by
        refine Int.eq_zero_of_abs_lt_dvd h6 ?_
        rw [abs_sub_lt_iff]
        omega
      omega

/-- On a phase configuration coherent with `v < 2 ^ p`, the inverse QFT
measures `v`. -/
theorem decodeFourier_eq_some (p : ℕ) (phase : Fin p → ℚ) (v : ℕ) (hv : v < 2 ^ p)
    (hcoh : coherentAt p phase v = true) :
    decodeFourier p phase = some v := by
  unfold decodeFourier
  cases hf : (List.range (2 ^ p)).find? (coherentAt p phase) with
  | none =>
      rw [List.find?_eq_none] at hf
      exact absurd hcoh (hf v (List.mem_range.mpr hv))
  | some b =>
      have hb := List.find?_some hf
      have hbm := List.mem_range.mp (List.mem_of_find?_eq_some hf)
      rw [coherent_unique p phase b v hbm hv hb hcoh]

theorem kickSum_barrierIf (Areg Breg : QReg) (a t : ℕ) (b : Bool) :
    kickSum Areg Breg a t (if b then [Op.barrier] else []) = 0 := by
  rcases b
  · simp [kickSum]
  · simp [kickSum, opKick]

theorem kickbackOps_phase (cfg : AdderCfg) :
    ∀ op ∈ (if cfg.insert_barrier then [Op.barrier] else []) ++ kickbackOps cfg,
      phaseOp cfg.A_reg cfg.B_reg op := by
  intro op hop
  rcases List.mem_append.mp hop with hb | hk
  · rcases hbar : cfg.insert_barrier <;> rw [hbar] at hb
    · simp at hb
    · simp at hb
      subst hb
      trivial
  · rw [kickbackOps] at hk
    rcases List.mem_flatMap.mp hk with ⟨c, _, hin⟩
    rcases List.mem_append.mp hin with hm | hm
    · rcases List.mem_map.mp hm with ⟨t', ht', rfl⟩
      rw [List.mem_range'_1] at ht'
      exact ⟨rfl, rfl, by omega⟩
    · rcases hbar : cfg.insert_barrier <;> rw [hbar] at hm
      · simp at hm
      · simp at hm
        subst hm
        trivial

/-- C2.  For every successfully built `QFTAdder` circuit with the basis
transform enabled (`skip_qft = false`) and all computational-basis inputs
`x < 2^p` on the target register and `a < 2^q` on the operand register,
measuring the target register after the circuit yields `(x + a) mod 2^p` in
addition mode and `(x - a) mod 2^p` (the nonnegative representative) in
subtraction mode.  The operand register is unchanged by construction of the
semantics: every gate of the circuit only controls on it, never targets it. -/
theorem C2_adder_modular_sum (cfg : AdderCfg) (circ : Circuit)
    (hskip : cfg.skip_qft = false)
    (hbuild : adderBuild cfg = .ok circ)
    (x a : ℕ) (_hx : x < 2 ^ cfg.A_reg.size) (ha : a < 2 ^ cfg.B_reg.size) :
    measureAdderCircuit cfg circ x a
      = some (if cfg.subtract
          then (((x : ℤ) - a) % ((2 : ℤ) ^ cfg.A_reg.size)).toNat
          else (x + a) % 2 ^ cfg.A_reg.size) := by
  have hops : circ.ops = adderBuildOps cfg := by
    rw [adderBuild] at hbuild
    cases hN : newCircuit (adderCircuitRegs cfg) cfg.label with
    | error e => rw [hN] at hbuild; exact Except.noConfusion hbuild
    | ok c0 =>
        rw [hN] at hbuild
        simp only [Except.ok.injEq] at hbuild
        rw [← hbuild]
  have hv : (if cfg.subtract
        then (((x : ℤ) - a) % ((2 : ℤ) ^ cfg.A_reg.size)).toNat
        else (x + a) % 2 ^ cfg.A_reg.size) < 2 ^ cfg.A_reg.size := by
    rcases hsub : cfg.subtract
    · simp only [Bool.false_eq_true, if_false]
      exact Nat.mod_lt _ (by positivity)
    · simp only [if_true]
      have hnn : (0 : ℤ) ≤ ((x : ℤ) - a) % ((2 : ℤ) ^ cfg.A_reg.size) :=
        Int.emod_nonneg _ (by positivity)
      rw [Int.toNat_lt hnn]
      calc ((x : ℤ) - a) % ((2 : ℤ) ^ cfg.A_reg.size)
          < (2 : ℤ) ^ cfg.A_reg.size := Int.emod_lt_of_pos _ (by positivity)
        _ = ((2 ^ cfg.A_reg.size : ℕ) : ℤ) := by push_cast; ring
  have hcoh := coherent_shifted cfg.A_reg.size cfg.B_reg.size x a cfg.subtract ha
  have hdec : decodeFourier cfg.A_reg.size
      (fun t => (x : ℚ) / 2 ^ (t.val + 1)
        + (if cfg.subtract then (-1 : ℚ) else 1)
            * (bitsBelow a cfg.B_reg.size t.val : ℚ) / 2 ^ (t.val + 1))
      = some (if cfg.subtract
          then (((x : ℤ) - a) % ((2 : ℤ) ^ cfg.A_reg.size)).toNat
          else (x + a) % 2 ^ cfg.A_reg.size) :=
    decodeFourier_eq_some _ _ _ hv hcoh
  have hrun : runOps cfg.A_reg cfg.B_reg a (AState.comp x) (adderBuildOps cfg)
      = some (AState.comp (if cfg.subtract
          then (((x : ℤ) - a) % ((2 : ℤ) ^ cfg.A_reg.size)).toNat
          else (x + a) % 2 ^ cfg.A_reg.size)) := by
    rw [adderBuildOps, applyQFTOps, applyIQFTOps, hskip]
    simp only [Bool.false_eq_true, if_false]
    have hshape :
        (([Op.qftGate cfg.A_reg.size]
            ++ (if cfg.insert_barrier then [Op.barrier] else []))
          ++ kickbackOps cfg ++ [Op.iqftGate cfg.A_reg.size])
        = Op.qftGate cfg.A_reg.size
            :: (((if cfg.insert_barrier then [Op.barrier] else [])
                  ++ kickbackOps cfg) ++ [Op.iqftGate cfg.A_reg.size]) := by
      simp [List.append_assoc]
    rw [hshape]
    have hstep1 : adderStepOp cfg.A_reg cfg.B_reg a (AState.comp x)
        (Op.qftGate cfg.A_reg.size)
        = some (AState.fourier (qftPhases cfg.A_reg.size x)) := by
      simp [adderStepOp]
    rw [runOps_cons_some _ hstep1, runOps_append,
      runOps_phase cfg.A_reg cfg.B_reg a _ (kickbackOps_phase cfg) _,
      Option.some_bind]
    have hphi : (fun t : Fin cfg.A_reg.size => qftPhases cfg.A_reg.size x t
          + kickSum cfg.A_reg cfg.B_reg a t.val
              ((if cfg.insert_barrier then [Op.barrier] else []) ++ kickbackOps cfg))
        = (fun t : Fin cfg.A_reg.size => (x : ℚ) / 2 ^ (t.val + 1)
            + (if cfg.subtract then (-1 : ℚ) else 1)
                * (bitsBelow a cfg.B_reg.size t.val : ℚ) / 2 ^ (t.val + 1)) := by
      funext t
      rw [qftPhases, kickSum_append, kickSum_barrierIf, zero_add,
        kickSum_kickbacks cfg a t.val t.isLt]
    rw [hphi]
    have hstep2 : adderStepOp cfg.A_reg cfg.B_reg a
        (AState.fourier (fun t => (x : ℚ) / 2 ^ (t.val + 1)
          + (if cfg.subtract then (-1 : ℚ) else 1)
              * (bitsBelow a cfg.B_reg.size t.val : ℚ) / 2 ^ (t.val + 1)))
        (Op.iqftGate cfg.A_reg.size)
        = some (AState.comp (if cfg.subtract
            then (((x : ℤ) - a) % ((2 : ℤ) ^ cfg.A_reg.size)).toNat
            else (x + a) % 2 ^ cfg.A_reg.size)) := by
      simp only [adderStepOp, if_pos]
      rw [hdec]
      rfl
    rw [runOps_cons_some _ hstep2]
    rfl
  rw [measureAdderCircuit, hops, hrun]

/-- The spec's concrete addition case: internal adder with `X` width 3 and `A`
width 2. -/
def c2cfg : AdderCfg := ⟨⟨3, "A"⟩, ⟨2, "B"⟩, 2, true, false, false, "|A+B⟩", false, false⟩

/-- The circuit `build()` returns on `c2cfg`. -/
def c2circ : Circuit := ⟨[⟨3, "A"⟩, ⟨2, "B"⟩], "|A+B⟩", adderBuildOps c2cfg⟩

/-- The spec's concrete subtraction case: same widths, subtraction mode. -/
def c2scfg : AdderCfg := ⟨⟨3, "A"⟩, ⟨2, "B"⟩, 2, true, true, false, "|A-B⟩", false, false⟩

/-- The circuit `build()` returns on `c2scfg`. -/
def c2scirc : Circuit := ⟨[⟨3, "A"⟩, ⟨2, "B"⟩], "|A-B⟩", adderBuildOps c2scfg⟩

/-- C2 (witness): the spec's worked examples.  With `p = 3`, `q = 2`:
`x = 5, a = 3` in addition mode measures `(5+3) mod 8 = 0`; `x = 2, a = 3` in
subtraction mode measures `(2-3) mod 8 = 7`. -/
theorem C2_adder_modular_sum_witness :
    (measureAdderCircuit c2cfg c2circ 5 3 = some ((5 + 3) % 2 ^ 3)
        ∧ (5 + 3) % 2 ^ 3 = 0) ∧
      (measureAdderCircuit c2scfg c2scirc 2 3
          = some ((((2 : ℤ) - 3) % ((2 : ℤ) ^ 3)).toNat)
        ∧ (((2 : ℤ) - 3) % ((2 : ℤ) ^ 3)).toNat = 7) :=
  ⟨⟨C2_adder_modular_sum c2cfg c2circ rfl rfl 5 3 (by decide) (by decide), by decide⟩,
   ⟨C2_adder_modular_sum c2scfg c2scirc rfl rfl 2 3 (by decide) (by decide), by decide⟩⟩
